import Mathlib

/-!
Verification development for `similar_books.py`.

The program is a linear pipeline: tokenize each text file, compute the top-K
most frequent words per file (`collections.Counter.most_common`), compare every
unordered pair of files by common top-K words and Jaccard index, sort the pair
results, and report/export them.

Embedding conventions:
* Python strings are `String` / `List Char`; tokens are `String`.
* Python floats are embedded as exact rationals (`ℚ`); `round(x, 4)` is
  embedded as round-half-to-even on rationals (`pyRound4`).
* Python sets of strings are `Finset String` (generalised to any type with
  decidable equality, as the Python functions are generic in the element type).
* `collections.Counter` iterates its keys in insertion order, i.e. in order of
  first occurrence in the token sequence, and `Counter.most_common(k)` is
  `heapq.nlargest(k, items, key=count)`, which decorates every item with its
  position and selects by the pair (count, earlier position): a stable
  descending sort followed by `take k`.  We embed this as a `mergeSort` whose
  comparator compares counts and breaks ties by the index of the first
  occurrence of the word in the token sequence (`counterLe`); this induces the
  same order as the iteration position of the key, since first-occurrence
  indices are strictly monotone in insertion order.
* File-system interaction is abstracted: the directory is a list of file names
  and the file contents are a function from names to text (decoding errors are
  already ignored by `errors='ignore'`, so reading never fails).
-/

namespace SimilarBooks

/-- Stopword set of the program: `STOPWORDS = {"A", "AND", "AN", "OF", "IN", "THE"}`. -/
def STOPWORDS : List String := [("A"), ("AND"), ("AN"), ("OF"), ("IN"), ("THE")]

/-- Character class of the regex `[0-9A-Za-z]`: ASCII digits and letters, decided by
code point (as Python `re` does on `str`). -/
def isAlnumAscii (c : Char) : Bool :=
  (48 ≤ c.toNat && c.toNat ≤ 57) || (65 ≤ c.toNat && c.toNat ≤ 90) ||
    (97 ≤ c.toNat && c.toNat ≤ 122)

/-- Worker for `subNonAlnum`.  The flag records whether we are currently inside a run of
characters outside the class `[0-9A-Za-z]` whose single replacement space has already
been emitted. -/
def subAux : List Char → Bool → List Char
  | [], _ => []
  | c :: cs, true => if isAlnumAscii c then c :: subAux cs false else subAux cs true
  | c :: cs, false =>
    if isAlnumAscii c then c :: subAux cs false else ' ' :: subAux cs true

/-- Model of `re.sub(r'[^0-9A-Za-z]+', ' ', text)`: every maximal run of characters
outside the class `[0-9A-Za-z]` is replaced by a single space. -/
def subNonAlnum (l : List Char) : List Char := subAux l false

/-- Model of `clean_and_tokenize` (lines 29-39): keep only alphanumeric characters,
replacing every run of other characters by a space, uppercase (`str.upper`; on the
substituted text only ASCII letters and spaces remain, where `Char.toUpper` agrees
with Python), split on whitespace (`str.split()` drops empty pieces; after the
substitution the only whitespace character is the space), and drop stopwords. -/
def clean_and_tokenize (s : String) : List String :=
  let cleaned := subNonAlnum s.data
  let upped := cleaned.map Char.toUpper
  let tokens := ((upped.splitOn ' ').filter (fun t => decide (t ≠ []))).map List.asString
  tokens.filter (fun t => decide (t ∉ STOPWORDS))

/-- Model of `read_tokens_from_file` (lines 41-44): read the whole file (decoding
errors ignored, so the read is total) and tokenize it. -/
def read_tokens_from_file (contents : String → String) (path : String) : List String :=
  clean_and_tokenize (contents path)

/-- Uppercase-alphanumeric characters: ASCII digits and upper case letters.  Used to
state properties of the tokenizer output. -/
def isUpperAlnum (c : Char) : Bool :=
  (48 ≤ c.toNat && c.toNat ≤ 57) || (65 ≤ c.toNat && c.toNat ≤ 90)

/-- Space-joined token list (the string `" ".join(tokens)` would produce). -/
def joinTokens (ts : List String) : String :=
  List.asString (List.intercalate [' '] (ts.map String.data))

/-- Worker for `dedupFirst`: keep the first occurrence of every element, in order;
`seen` accumulates elements already emitted. -/
def dedupFirstAux : List String → List String → List String
  | _, [] => []
  | seen, w :: ws =>
    if w ∈ seen then dedupFirstAux seen ws else w :: dedupFirstAux (w :: seen) ws

/-- The distinct words of a token sequence in order of first occurrence: the key
iteration order of `collections.Counter(tokens)` (a Python dict preserves insertion
order). -/
def dedupFirst (l : List String) : List String := dedupFirstAux [] l

/-- Comparator used by `Counter.most_common(k)` (via `heapq.nlargest`): an item sorts
before another if its count is larger, or the counts are equal and its first
occurrence in the token sequence is earlier. -/
def counterLe (tokens : List String) (a b : String × Nat) : Bool :=
  decide (b.2 < a.2 ∨ (a.2 = b.2 ∧ List.indexOf a.1 tokens ≤ List.indexOf b.1 tokens))

/-- Model of `Counter(tokens).most_common(k)`: the (word, count) items of the counter,
stably sorted by count descending, truncated to `k` items. -/
def most_common (tokens : List String) (k : Nat) : List (String × Nat) :=
  (((dedupFirst tokens).map (fun w => (w, tokens.count w))).mergeSort
    (counterLe tokens)).take k

/-- One row of the top-K table: the dict `{"WORD": w, "COUNT": c, "NORM_FREQ": ...}`
built in `topk_frequencies`. -/
structure TopKEntry where
  WORD : String
  COUNT : Nat
  NORM_FREQ : ℚ
deriving DecidableEq

/-- Model of `topk_frequencies` (lines 46-58): the top-K table of a token sequence
together with the total token count.  `NORM_FREQ` is `(c / total) if total else 0.0`
(Python truthiness: `total` is truthy iff it is nonzero). -/
def topk_frequencies (tokens : List String) (k : Nat) : List TopKEntry × Nat :=
  let total := tokens.length
  let top_table := (most_common tokens k).map (fun p =>
    { WORD := p.1, COUNT := p.2,
      NORM_FREQ := if total ≠ 0 then (p.2 : ℚ) / (total : ℚ) else 0 })
  (top_table, total)

/-- Model of `similarity_metrics` (lines 60-65): the common-word count and the Jaccard
index of two top-K word sets.  `len(inter) / len(union) if union else 0.0`: the union
is truthy iff it is nonempty. -/
def similarity_metrics {α : Type} [DecidableEq α] (top_set_a top_set_b : Finset α) :
    Nat × ℚ :=
  let inter := top_set_a ∩ top_set_b
  let union := top_set_a ∪ top_set_b
  (inter.card, if union.Nonempty then (inter.card : ℚ) / (union.card : ℚ) else 0)

/-- Round a rational to the nearest integer, ties to the even integer (the rounding
mode of Python `round`). -/
def roundHalfEven (x : ℚ) : ℤ :=
  if Int.fract x < 1 / 2 then ⌊x⌋
  else if 1 / 2 < Int.fract x then ⌊x⌋ + 1
  else if ⌊x⌋ % 2 = 0 then ⌊x⌋ else ⌊x⌋ + 1

/-- Model of `round(x, 4)`: round to 4 decimal places, ties to even. -/
def pyRound4 (x : ℚ) : ℚ := (roundHalfEven (x * 10000) : ℚ) / 10000

/-- One pair result: the dict built in `main` (lines 117-122).  `JACCARD` stores the
rounded Jaccard index, exactly as the source does. -/
structure PairResult where
  FILE_A : String
  FILE_B : String
  COMMON_TOPK_WORDS : Nat
  JACCARD : ℚ
deriving DecidableEq

/-- Build the pair result for files `a` and `b` with top-K word sets `sa` and `sb`
(lines 114-122 of `main`). -/
def mkPair (a b : String) (sa sb : Finset String) : PairResult :=
  let m := similarity_metrics sa sb
  { FILE_A := a, FILE_B := b, COMMON_TOPK_WORDS := m.1, JACCARD := pyRound4 m.2 }

/-- Comparator of the final sort (line 125):
`pairs.sort(key=lambda x: (x["COMMON_TOPK_WORDS"], x["JACCARD"]), reverse=True)` is a
stable descending sort by the lexicographic tuple key. -/
def pairSortLe (p q : PairResult) : Bool :=
  decide (q.COMMON_TOPK_WORDS < p.COMMON_TOPK_WORDS ∨
    (p.COMMON_TOPK_WORDS = q.COMMON_TOPK_WORDS ∧ q.JACCARD ≤ p.JACCARD))

/-- Model of the pair sort of line 125: stable sort, common count descending, then
Jaccard descending. -/
def sortPairs (l : List PairResult) : List PairResult := l.mergeSort pairSortLe

/-- Model of `itertools.combinations(l, 2)`: all pairs `(l[i], l[j])` with `i < j`,
in lexicographic index order. -/
def combinations2 {α : Type} : List α → List (α × α)
  | [] => []
  | a :: rest => (rest.map (fun b => (a, b))) ++ combinations2 rest

/-- The set of words of a top-K table: `{row["WORD"] for row in table}`. -/
def wordSet (table : List TopKEntry) : Finset String :=
  (table.map TopKEntry.WORD).toFinset

/-- The top-K word set of a document: the set comprehension of lines 114-115 applied
to the table computed by `topk_frequencies`. -/
def topkWordSet (tokens : List String) (k : Nat) : Finset String :=
  wordSet (topk_frequencies tokens k).1

/-- Model of `str.lower` on file names.  (`Char.toLower` lowercases exactly the ASCII
letters; the suffix `".txt"` being ASCII, this is what the check of line 70 needs.) -/
def lowerName (s : String) : String := List.asString (s.data.map Char.toLower)

/-- Model of `f.lower().endswith(".txt")` from `list_text_files` (line 70). -/
def hasTxtSuffix (f : String) : Bool :=
  List.isSuffixOf (String.data (".txt")) (lowerName f).data

/-- Model of `list_text_files` (lines 67-71): the file names of the directory whose
lowercased name ends in `".txt"`, sorted lexicographically.  The directory is
abstracted as its (duplicate-free) list of entry names; `os.path.join` followed by
`os.path.basename` in `main` is the identity on such names. -/
def list_text_files (dirFiles : List String) : List String :=
  (dirFiles.filter (fun f => hasTxtSuffix f)).mergeSort (fun a b => decide (a ≤ b))

/-- Result of one run of `main`: either the early exit of lines 81-83, or the full
report.  `insufficient` carries the printed message and, by construction, no top-K
tables, no pair list and no export files. -/
inductive MainResult where
  | insufficient (message : String) : MainResult
  | report (file_topk : List (String × List TopKEntry))
      (file_totals : List (String × Nat))
      (pairs : List PairResult)
      (best : Option PairResult)
      (exports : Option (String × String)) : MainResult
deriving DecidableEq

/-- The top-K word set of a file, looked up in the `file_topk` table
(`{row["WORD"] for row in file_topk[a]}`, lines 114-115). -/
def topkWordsOf (file_topk : List (String × List TopKEntry)) (f : String) :
    Finset String :=
  wordSet ((file_topk.lookup f).getD [])

/-- Model of `main` (lines 73-166).  Arguments: the directory listing, the file
contents, `--topk` and `--export`.  The early return of lines 81-83 produces
`insufficient`; otherwise the report carries the per-file top-K tables and totals,
the sorted pair list, the best pair (`pairs[0]`), and the names of the export files
written when `--export` is truthy (a nonempty string). -/
def main (dirFiles : List String) (contents : String → String) (topk : Nat)
    (exportArg : String) : MainResult :=
  let files := list_text_files dirFiles
  if files.length < 2 then
    MainResult.insufficient ("Please provide at least 2 .txt files in the directory.")
  else
    let file_topk := files.map (fun fpath =>
      (fpath, (topk_frequencies (read_tokens_from_file contents fpath) topk).1))
    let file_totals := files.map (fun fpath =>
      (fpath, (topk_frequencies (read_tokens_from_file contents fpath) topk).2))
    let pairs := (combinations2 files).map (fun ab =>
      mkPair ab.1 ab.2 (topkWordsOf file_topk ab.1) (topkWordsOf file_topk ab.2))
    let sorted := sortPairs pairs
    MainResult.report file_topk file_totals sorted sorted.head?
      (if exportArg ≠ ("") then
        some (exportArg ++ ("_pairs.csv"), exportArg ++ ("_topk.csv"))
      else none)

/-- A set of `n` distinct words, used as a concrete top-K word-set input:
`""`, `"A"`, `"AA"`, ... -/
def sampleWords (n : Nat) : Finset String :=
  (Finset.range n).image (fun i => List.asString (List.replicate i ('A')))

/-! ## Character-level lemmas -/

theorem charOfNat_toNat {n : Nat} (h : n < 55296) : (Char.ofNat n).toNat = n := by
  rw [Char.ofNat, dif_pos (Or.inl h)]
  rfl

theorem toUpper_of_not_lower {c : Char} (h : ¬(97 ≤ c.toNat ∧ c.toNat ≤ 122)) :
    Char.toUpper c = c := by
  simp only [Char.toUpper, ge_iff_le]
  split
  · next hcond => exact absurd ⟨hcond.1, hcond.2⟩ h
  · rfl

theorem toUpper_of_lower {c : Char} (h1 : 97 ≤ c.toNat) (h2 : c.toNat ≤ 122) :
    (Char.toUpper c).toNat = c.toNat - 32 := by
  simp only [Char.toUpper, ge_iff_le]
  rw [if_pos ⟨h1, h2⟩]
  exact charOfNat_toNat (by omega)

theorem isUpperAlnum_toUpper {c : Char} (h : isAlnumAscii c = true) :
    isUpperAlnum (Char.toUpper c) = true := by
  simp only [isAlnumAscii, Bool.or_eq_true, Bool.and_eq_true, decide_eq_true_eq] at h
  by_cases hl : 97 ≤ c.toNat ∧ c.toNat ≤ 122
  · have ht := toUpper_of_lower hl.1 hl.2
    simp only [isUpperAlnum, Bool.or_eq_true, Bool.and_eq_true, decide_eq_true_eq, ht]
    omega
  · rw [toUpper_of_not_lower hl]
    simp only [isUpperAlnum, Bool.or_eq_true, Bool.and_eq_true, decide_eq_true_eq]
    omega

theorem isAlnumAscii_of_isUpperAlnum {c : Char} (h : isUpperAlnum c = true) :
    isAlnumAscii c = true := by
  simp only [isUpperAlnum, Bool.or_eq_true, Bool.and_eq_true, decide_eq_true_eq] at h
  simp only [isAlnumAscii, Bool.or_eq_true, Bool.and_eq_true, decide_eq_true_eq]
  omega

theorem toUpper_eq_self_of_isUpperAlnum {c : Char} (h : isUpperAlnum c = true) :
    Char.toUpper c = c := by
  simp only [isUpperAlnum, Bool.or_eq_true, Bool.and_eq_true, decide_eq_true_eq] at h
  exact toUpper_of_not_lower (by omega)

theorem isUpperAlnum_ne_space {c : Char} (h : isUpperAlnum c = true) : c ≠ ' ' := by
  rintro rfl
  simp only [isUpperAlnum, Bool.or_eq_true, Bool.and_eq_true, decide_eq_true_eq] at h
  revert h
  decide

/-! ## Lemmas about the substitution pass -/

theorem mem_subAux {c : Char} :
    ∀ (l : List Char) (b : Bool), c ∈ subAux l b → isAlnumAscii c = true ∨ c = ' ' := by
  intro l
  induction l with
  | nil => intro b h; cases b <;> simp [subAux] at h
  | cons d t ih =>
    intro b h
    by_cases hd : isAlnumAscii d = true
    · cases b <;> rw [subAux, if_pos hd] at h <;>
        rcases List.mem_cons.mp h with rfl | h2
      · exact Or.inl hd
      · exact ih false h2
      · exact Or.inl hd
      · exact ih false h2
    · cases b
      · rw [subAux, if_neg hd] at h
        rcases List.mem_cons.mp h with rfl | h2
        · exact Or.inr rfl
        · exact ih true h2
      · rw [subAux, if_neg hd] at h
        exact ih true h

theorem subAux_append_alnum :
    ∀ (t r : List Char), (∀ c ∈ t, isAlnumAscii c = true) →
      subAux (t ++ r) false = t ++ subAux r false := by
  intro t
  induction t with
  | nil => intro r _; rfl
  | cons d u ih =>
    intro r h
    rw [List.cons_append, subAux, if_pos (h d (List.mem_cons_self d u)),
      ih r (fun c hc => h c (List.mem_cons_of_mem d hc))]
    rfl

theorem subAux_space_cons (r : List Char) :
    subAux (' ' :: r) false = ' ' :: subAux r true := by
  rw [subAux, if_neg]
  decide

theorem subAux_true_eq_false (r : List Char)
    (h : r = [] ∨ ∃ d rs, r = d :: rs ∧ isAlnumAscii d = true) :
    subAux r true = subAux r false := by
  rcases h with rfl | ⟨d, rs, rfl, hd⟩
  · rfl
  · rw [subAux, subAux, if_pos hd, if_pos hd]

/-! ## Lemmas about intercalate, intersperse and splitOn -/

theorem mem_intersperse {α : Type} {sep y : α} :
    ∀ {l : List α}, y ∈ l.intersperse sep → y = sep ∨ y ∈ l
  | [], h => by simp at h
  | [a], h => by simpa using Or.inr (by simpa using h)
  | a :: b :: t, h => by
    rw [List.intersperse_cons₂] at h
    rcases List.mem_cons.mp h with rfl | h2
    · right; exact List.mem_cons_self _ _
    · rcases List.mem_cons.mp h2 with rfl | h3
      · left; rfl
      · rcases mem_intersperse h3 with h4 | h4
        · left; exact h4
        · right; exact List.mem_cons_of_mem _ h4

theorem mem_of_mem_splitOn {l t : List Char} {x c : Char}
    (ht : t ∈ l.splitOn x) (hc : c ∈ t) : c ∈ l ∧ c ≠ x := by
  induction l generalizing t with
  | nil =>
    simp only [List.splitOn, List.splitOnP_nil, List.mem_singleton] at ht
    subst ht
    simp at hc
  | cons a l ih =>
    rw [List.splitOn, List.splitOnP_cons] at ht
    by_cases ha : a = x
    · rw [if_pos (by simpa using ha)] at ht
      rcases List.mem_cons.mp ht with rfl | h2
      · simp at hc
      · have := ih (t := t) (by rwa [List.splitOn]) hc
        exact ⟨List.mem_cons_of_mem _ this.1, this.2⟩
    · rw [if_neg (by simpa using ha)] at ht
      rcases hsp : l.splitOn x with _ | ⟨h0, tl⟩
      · exact absurd hsp (List.splitOnP_ne_nil _ _)
      · rw [List.splitOn] at hsp
        rw [hsp] at ht
        simp only [List.modifyHead] at ht
        rcases List.mem_cons.mp ht with rfl | h2
        · rcases List.mem_cons.mp hc with rfl | h3
          · exact ⟨List.mem_cons_self _ _, ha⟩
          · have := ih (t := h0)
              (by rw [List.splitOn, hsp]; exact List.mem_cons_self _ _) h3
            exact ⟨List.mem_cons_of_mem _ this.1, this.2⟩
        · have := ih (t := t)
            (by rw [List.splitOn, hsp]; exact List.mem_cons_of_mem _ h2) hc
          exact ⟨List.mem_cons_of_mem _ this.1, this.2⟩

/-! ## The substitution, uppercasing and splitting passes are the identity on a
space-join of clean tokens -/

theorem subAux_intercalate (toks : List (List Char))
    (h : ∀ t ∈ toks, t ≠ [] ∧ ∀ c ∈ t, isAlnumAscii c = true) :
    subAux (List.intercalate [' '] toks) false = List.intercalate [' '] toks := by
  induction toks with
  | nil => simp [List.intercalate, subAux]
  | cons t rest ih =>
    have ht := h t (List.mem_cons_self _ _)
    cases rest with
    | nil =>
      have h1 : List.intercalate [' '] [t] = t := by simp [List.intercalate]
      rw [h1]
      have h2 : subAux ([] : List Char) false = [] := rfl
      have := subAux_append_alnum t [] ht.2
      rw [h2, List.append_nil] at this
      exact this
    | cons t' rest' =>
      have ht' := h t' (List.mem_cons_of_mem _ (List.mem_cons_self _ _))
      have hic : List.intercalate [' '] (t :: t' :: rest') =
          t ++ (' ' :: List.intercalate [' '] (t' :: rest')) := by
        simp [List.intercalate]
      have hhead : List.intercalate [' '] (t' :: rest') = [] ∨
          ∃ d rs, List.intercalate [' '] (t' :: rest') = d :: rs ∧
            isAlnumAscii d = true := by
        rcases ht'' : t' with _ | ⟨d, ds⟩
        · exact absurd ht'' ht'.1
        · right
          have hd : isAlnumAscii d = true := by
            apply ht'.2
            rw [ht'']
            exact List.mem_cons_self _ _
          cases rest' with
          | nil => exact ⟨d, ds, by simp [List.intercalate], hd⟩
          | cons u us =>
            exact ⟨d, ds ++ ' ' :: List.intercalate [' '] (u :: us),
              by simp [List.intercalate], hd⟩
      rw [hic, subAux_append_alnum _ _ ht.2, subAux_space_cons,
        subAux_true_eq_false _ hhead,
        ih (fun u hu => h u (List.mem_cons_of_mem _ hu))]

theorem map_toUpper_intercalate (toks : List (List Char))
    (h : ∀ t ∈ toks, ∀ c ∈ t, isUpperAlnum c = true) :
    (List.intercalate [' '] toks).map Char.toUpper = List.intercalate [' '] toks := by
  have hid : ∀ c ∈ List.intercalate [' '] toks, Char.toUpper c = c := by
    intro c hc
    rw [List.intercalate] at hc
    rcases List.mem_flatten.mp hc with ⟨l, hl, hcl⟩
    rcases mem_intersperse hl with rfl | hlt
    · have : c = ' ' := by simpa using hcl
      subst this
      decide
    · exact toUpper_eq_self_of_isUpperAlnum (h l hlt c hcl)
  have := List.map_congr_left (g := id) hid
  rwa [List.map_id] at this

theorem tokens_of_join (toks : List (List Char))
    (h : ∀ t ∈ toks, t ≠ [] ∧ ∀ c ∈ t, isUpperAlnum c = true) :
    ((List.intercalate [' '] toks).splitOn ' ').filter (fun t => decide (t ≠ [])) =
      toks := by
  cases toks with
  | nil => rfl
  | cons t rest =>
    have hnospace : ∀ l ∈ t :: rest, ' ' ∉ l := by
      intro l hl hsp
      exact isUpperAlnum_ne_space ((h l hl).2 ' ' hsp) rfl
    rw [List.splitOn_intercalate (t :: rest) ' ' hnospace (List.cons_ne_nil _ _)]
    rw [List.filter_eq_self.mpr]
    intro a ha
    simpa using (h a ha).1

/-! ## Properties of the tokenizer output -/

theorem string_eq_empty_of_data_eq_nil {t : String} (h : t.data = []) : t = ("") := by
  cases t
  simp only [String.data] at h
  subst h
  rfl

theorem clean_tokens_spec (s : String) :
    ∀ t ∈ clean_and_tokenize s,
      t ≠ ("") ∧ (∀ c ∈ t.data, isUpperAlnum c = true) ∧ t ∉ STOPWORDS := by
  intro t ht
  unfold clean_and_tokenize at ht
  simp only [List.mem_filter, List.mem_map, decide_eq_true_eq] at ht
  obtain ⟨⟨u, ⟨hu_mem, hune⟩, rfl⟩, hstop⟩ := ht
  refine ⟨?_, ?_, hstop⟩
  · intro he
    exact hune (congrArg String.data he)
  · intro c hc
    have hcu : c ∈ u := hc
    obtain ⟨hcup, hcsp⟩ := mem_of_mem_splitOn hu_mem hcu
    rcases List.mem_map.mp hcup with ⟨d, hd, rfl⟩
    rcases mem_subAux _ _ hd with hda | rfl
    · exact isUpperAlnum_toUpper hda
    · exact absurd (by decide : Char.toUpper ' ' = ' ') hcsp

/-- Claim C4: tokenizing the string "The Cat and the DOG, the dog-house!" yields
exactly ["CAT", "DOG", "DOG", "HOUSE"]: every maximal run of non-alphanumeric
characters acts as a separator, letters are upper-cased, and tokens equal to one of
the six stopwords are dropped without reordering the rest. -/
theorem claim_C4 :
    clean_and_tokenize ("The Cat and the DOG, the dog-house!") =
      [("CAT"), ("DOG"), ("DOG"), ("HOUSE")] := by
  decide

/-- Claim C10: the tokenizer is idempotent on its own output: every token emitted by
clean_and_tokenize is a non-empty uppercase alphanumeric string that is not a
stopword, and tokenizing the space-joined output of clean_and_tokenize returns that
same token list unchanged. -/
theorem claim_C10 (s : String) :
    (∀ t ∈ clean_and_tokenize s,
      t ≠ ("") ∧ (∀ c ∈ t.data, isUpperAlnum c = true) ∧ t ∉ STOPWORDS) ∧
    clean_and_tokenize (joinTokens (clean_and_tokenize s)) = clean_and_tokenize s := by
  refine ⟨clean_tokens_spec s, ?_⟩
  have hts := clean_tokens_spec s
  set ts := clean_and_tokenize s with hts_def
  have htoks : ∀ u ∈ ts.map String.data, u ≠ [] ∧ ∀ c ∈ u, isUpperAlnum c = true := by
    intro u hu
    rcases List.mem_map.mp hu with ⟨t, htmem, rfl⟩
    obtain ⟨h1, h2, _⟩ := hts t htmem
    exact ⟨fun hd => h1 (string_eq_empty_of_data_eq_nil hd), h2⟩
  have hjoin : (joinTokens ts).data = List.intercalate [' '] (ts.map String.data) := rfl
  show clean_and_tokenize (joinTokens ts) = ts
  simp only [clean_and_tokenize, subNonAlnum, hjoin]
  rw [subAux_intercalate _ (fun u hu =>
    ⟨(htoks u hu).1, fun c hc => isAlnumAscii_of_isUpperAlnum ((htoks u hu).2 c hc)⟩)]
  rw [map_toUpper_intercalate _ (fun u hu c hc => (htoks u hu).2 c hc)]
  rw [tokens_of_join _ htoks]
  rw [List.map_map]
  have hms : ts.map (List.asString ∘ String.data) = ts := by
    have := List.map_congr_left (l := ts) (f := List.asString ∘ String.data) (g := id)
      (fun a _ => rfl)
    rwa [List.map_id] at this
  rw [hms]
  rw [List.filter_eq_self.mpr]
  intro a ha
  simpa using (hts a ha).2.2

/-- Witness for C10 at a concrete input. -/
theorem claim_C10_witness :
    clean_and_tokenize (joinTokens (clean_and_tokenize ("dog-house!"))) =
        clean_and_tokenize ("dog-house!") ∧
      (("HOUSE") ≠ ("") ∧ (∀ c ∈ ("HOUSE").data, isUpperAlnum c = true) ∧
        ("HOUSE") ∉ STOPWORDS) :=
  ⟨(claim_C10 ("dog-house!")).2,
    (claim_C10 ("dog-house!")).1 ("HOUSE") (by decide)⟩

/-! ## Lemmas about dedupFirst and the most-common selection -/

theorem mem_dedupFirstAux {x : String} :
    ∀ (l seen : List String), x ∈ dedupFirstAux seen l ↔ x ∈ l ∧ x ∉ seen := by
  intro l
  induction l with
  | nil => intro seen; simp [dedupFirstAux]
  | cons w ws ih =>
    intro seen
    by_cases hw : w ∈ seen
    · rw [dedupFirstAux, if_pos hw, ih]
      constructor
      · rintro ⟨h1, h2⟩
        exact ⟨List.mem_cons_of_mem _ h1, h2⟩
      · rintro ⟨h1, h2⟩
        rcases List.mem_cons.mp h1 with rfl | h3
        · exact absurd hw h2
        · exact ⟨h3, h2⟩
    · rw [dedupFirstAux, if_neg hw]
      constructor
      · intro h
        rcases List.mem_cons.mp h with rfl | h2
        · exact ⟨List.mem_cons_self _ _, hw⟩
        · have := (ih (w :: seen)).mp h2
          exact ⟨List.mem_cons_of_mem _ this.1,
            fun hx => this.2 (List.mem_cons_of_mem _ hx)⟩
      · rintro ⟨h1, h2⟩
        rcases List.mem_cons.mp h1 with rfl | h3
        · exact List.mem_cons_self _ _
        · by_cases hxw : x = w
          · subst hxw; exact List.mem_cons_self _ _
          · exact List.mem_cons_of_mem _ ((ih (w :: seen)).mpr
              ⟨h3, by simp [hxw, h2]⟩)

theorem nodup_dedupFirstAux :
    ∀ (l seen : List String), (dedupFirstAux seen l).Nodup := by
  intro l
  induction l with
  | nil => intro seen; simp [dedupFirstAux]
  | cons w ws ih =>
    intro seen
    by_cases hw : w ∈ seen
    · rw [dedupFirstAux, if_pos hw]; exact ih seen
    · rw [dedupFirstAux, if_neg hw]
      refine List.nodup_cons.mpr ⟨?_, ih (w :: seen)⟩
      intro hmem
      exact ((mem_dedupFirstAux ws (w :: seen)).mp hmem).2 (List.mem_cons_self _ _)

theorem mem_dedupFirst {x : String} {l : List String} : x ∈ dedupFirst l ↔ x ∈ l := by
  rw [dedupFirst, mem_dedupFirstAux]
  simp

theorem nodup_dedupFirst (l : List String) : (dedupFirst l).Nodup :=
  nodup_dedupFirstAux l []

theorem dedupFirst_perm_dedup (l : List String) : (dedupFirst l).Perm l.dedup := by
  rw [List.perm_ext_iff_of_nodup (nodup_dedupFirst l) l.nodup_dedup]
  intro a
  rw [mem_dedupFirst, List.mem_dedup]

theorem counterLe_trans (tokens : List String) :
    ∀ a b c : String × Nat, counterLe tokens a b = true → counterLe tokens b c = true →
      counterLe tokens a c = true := by
  intro a b c
  simp only [counterLe, decide_eq_true_eq]
  omega

theorem counterLe_total (tokens : List String) :
    ∀ a b : String × Nat, (counterLe tokens a b || counterLe tokens b a) = true := by
  intro a b
  simp only [counterLe, Bool.or_eq_true, decide_eq_true_eq]
  omega

theorem most_common_pairwise (tokens : List String) (k : Nat) :
    (most_common tokens k).Pairwise (fun a b =>
      b.2 ≤ a.2 ∧ (a.2 = b.2 →
        List.indexOf a.1 tokens < List.indexOf b.1 tokens)) := by
  apply List.Pairwise.sublist (List.take_sublist _ _)
  have hsorted := List.sorted_mergeSort (counterLe_trans tokens) (counterLe_total tokens)
    ((dedupFirst tokens).map (fun w => (w, tokens.count w)))
  have hperm := List.mergeSort_perm
    ((dedupFirst tokens).map (fun w => (w, tokens.count w))) (counterLe tokens)
  have hfst : List.Perm ((((dedupFirst tokens).map (fun w => (w, tokens.count w))).mergeSort
      (counterLe tokens)).map Prod.fst) (dedupFirst tokens) := by
    have := hperm.map Prod.fst
    rwa [List.map_map, show (Prod.fst ∘ fun w => (w, tokens.count w)) = id from rfl,
      List.map_id] at this
  have hnodup : (((dedupFirst tokens).map (fun w => (w, tokens.count w))).mergeSort
      (counterLe tokens)).Pairwise (fun a b => a.1 ≠ b.1) :=
    List.pairwise_map.mp ((hfst.nodup_iff).mpr (nodup_dedupFirst tokens))
  have hmem : ∀ p ∈ ((dedupFirst tokens).map (fun w => (w, tokens.count w))).mergeSort
      (counterLe tokens), p.1 ∈ tokens := by
    intro p hp
    rcases List.mem_map.mp (List.mem_mergeSort.mp hp) with ⟨w, hw, rfl⟩
    exact mem_dedupFirst.mp hw
  refine List.Pairwise.imp_of_mem ?_ (hsorted.and hnodup)
  intro a b ha hb hab
  obtain ⟨hle, hne⟩ := hab
  simp only [counterLe, decide_eq_true_eq] at hle
  refine ⟨by omega, ?_⟩
  intro heq
  rcases hle with h | ⟨h1, h2⟩
  · omega
  · refine Nat.lt_of_le_of_ne h2 ?_
    intro hidx
    exact hne ((List.indexOf_inj (hmem a ha) (hmem b hb)).mp hidx)

theorem most_common_length (tokens : List String) (k : Nat) :
    (most_common tokens k).length = min k (dedupFirst tokens).length := by
  simp [most_common]

theorem most_common_complete (tokens : List String) (k : Nat)
    (h : (dedupFirst tokens).length ≤ k) :
    ∀ w ∈ tokens, (w, tokens.count w) ∈ most_common tokens k := by
  intro w hw
  rw [most_common, List.take_of_length_le]
  · exact List.mem_mergeSort.mpr (List.mem_map.mpr ⟨w, mem_dedupFirst.mpr hw, rfl⟩)
  · rw [List.length_mergeSort, List.length_map]
    exact h

/-- Claim C1: for every token sequence and every K ≥ 1, the top-K table returned by
topk_frequencies has at most K entries, is sorted by count descending, and when two
words have equal counts the word whose first occurrence came earlier in the token
sequence ranks higher; if the document has fewer than K distinct words, all of them
are returned. -/
theorem claim_C1 (tokens : List String) (k : Nat) (hk : 1 ≤ k) :
    ((topk_frequencies tokens k).1.length ≤ k) ∧
    ((topk_frequencies tokens k).1.Pairwise (fun a b => b.COUNT ≤ a.COUNT)) ∧
    ((topk_frequencies tokens k).1.Pairwise (fun a b => a.COUNT = b.COUNT →
      List.indexOf a.WORD tokens < List.indexOf b.WORD tokens)) ∧
    ((dedupFirst tokens).length < k →
      ∀ w ∈ tokens, w ∈ (topk_frequencies tokens k).1.map TopKEntry.WORD) := by
  have hp := most_common_pairwise tokens k
  have htable : (topk_frequencies tokens k).1 = (most_common tokens k).map (fun p =>
      { WORD := p.1, COUNT := p.2,
        NORM_FREQ := if tokens.length ≠ 0 then (p.2 : ℚ) / (tokens.length : ℚ)
          else 0 }) := rfl
  refine ⟨?_, ?_, ?_, ?_⟩
  · rw [htable, List.length_map, most_common_length]
    omega
  · rw [htable]
    exact List.pairwise_map.mpr (hp.imp (fun h => h.1))
  · rw [htable]
    exact List.pairwise_map.mpr (hp.imp (fun h => h.2))
  · intro hlt w hw
    rw [htable, List.map_map]
    exact List.mem_map.mpr
      ⟨(w, tokens.count w), most_common_complete tokens k (le_of_lt hlt) w hw, rfl⟩

/-- Witness for C1 at a concrete input. -/
theorem claim_C1_witness :
    1 ≤ 2 ∧
    (((topk_frequencies [("B"), ("B")] 2).1.length ≤ 2) ∧
    ((topk_frequencies [("B"), ("B")] 2).1.Pairwise (fun a b => b.COUNT ≤ a.COUNT)) ∧
    ((topk_frequencies [("B"), ("B")] 2).1.Pairwise (fun a b => a.COUNT = b.COUNT →
      List.indexOf a.WORD [("B"), ("B")] < List.indexOf b.WORD [("B"), ("B")])) ∧
    ((dedupFirst [("B"), ("B")]).length < 2 →
      ∀ w ∈ [("B"), ("B")],
        w ∈ (topk_frequencies [("B"), ("B")] 2).1.map TopKEntry.WORD)) :=
  ⟨by decide, claim_C1 [("B"), ("B")] 2 (by decide)⟩

/-! ## Sums of counts and normalized frequencies -/

theorem list_sum_map_div (l : List ℚ) (T : ℚ) :
    (l.map (fun x => x / T)).sum = l.sum / T := by
  induction l with
  | nil => simp
  | cons a t ih => simp [ih, add_div]

theorem list_sum_natCast (l : List ℕ) :
    ((l.sum : ℕ) : ℚ) = (l.map (fun n : ℕ => (n : ℚ))).sum := by
  induction l with
  | nil => simp
  | cons a t ih => simp [ih]

theorem counts_sum (tokens : List String) :
    ((dedupFirst tokens).map (fun w => tokens.count w)).sum = tokens.length := by
  have hperm := (dedupFirst_perm_dedup tokens).map (fun w => tokens.count w)
  rw [hperm.sum_eq]
  exact List.sum_map_count_dedup_eq_length tokens

theorem take_counts_le (tokens : List String) (k : Nat) :
    ((most_common tokens k).map (fun p => p.2)).sum ≤ tokens.length := by
  have h1 : most_common tokens k =
      ((((dedupFirst tokens).map (fun w => (w, tokens.count w))).mergeSort
        (counterLe tokens)).take k) := rfl
  rw [h1, List.map_take]
  have h2 : ∀ (lm : List ℕ), (lm.take k).sum ≤ lm.sum := by
    intro lm
    conv_rhs => rw [← List.take_append_drop k lm]
    rw [List.sum_append]
    exact Nat.le_add_right _ _
  refine le_trans (h2 _) ?_
  have hperm := (List.mergeSort_perm
    ((dedupFirst tokens).map (fun w => (w, tokens.count w)))
    (counterLe tokens)).map (fun p : String × Nat => p.2)
  rw [hperm.sum_eq, List.map_map]
  have hcomp : ((fun p : String × Nat => p.2) ∘ fun w => (w, tokens.count w)) =
      fun w => tokens.count w := rfl
  rw [hcomp, counts_sum]

/-- Claim C6: for every document, each top-K entry's normalized frequency equals its
count divided by the document's total filtered-token count exactly, the sum of top-K
normalized frequencies is at most 1, and a zero-token document returns an empty table
with total 0 (the normalized frequency falls back to 0 rather than dividing by
zero). -/
theorem claim_C6 (tokens : List String) (k : Nat) :
    (∀ e ∈ (topk_frequencies tokens k).1,
      e.NORM_FREQ = (e.COUNT : ℚ) / ((topk_frequencies tokens k).2 : ℚ)) ∧
    ((topk_frequencies tokens k).1.map TopKEntry.NORM_FREQ).sum ≤ 1 ∧
    (tokens = [] → topk_frequencies tokens k = ([], 0)) := by
  have htable : (topk_frequencies tokens k).1 = (most_common tokens k).map (fun p =>
      { WORD := p.1, COUNT := p.2,
        NORM_FREQ := if tokens.length ≠ 0 then (p.2 : ℚ) / (tokens.length : ℚ)
          else 0 }) := rfl
  have htotal : (topk_frequencies tokens k).2 = tokens.length := rfl
  by_cases h0 : tokens.length = 0
  · have hnil : tokens = [] := List.length_eq_zero.mp h0
    subst hnil
    refine ⟨?_, ?_, fun _ => ?_⟩
    · intro e he
      rw [htable] at he
      simp [most_common, dedupFirst, dedupFirstAux] at he
    · rw [htable]
      simp [most_common, dedupFirst, dedupFirstAux]
    · simp [topk_frequencies, most_common, dedupFirst, dedupFirstAux]
  · refine ⟨?_, ?_, fun h => absurd (by rw [h]; rfl) h0⟩
    · intro e he
      rw [htable] at he
      rcases List.mem_map.mp he with ⟨p, hp, rfl⟩
      show (if tokens.length ≠ 0 then (p.2 : ℚ) / (tokens.length : ℚ) else 0) =
        ((p.2 : ℕ) : ℚ) / ((tokens.length : ℕ) : ℚ)
      rw [if_pos h0]
    · have hmap : List.map TopKEntry.NORM_FREQ ((topk_frequencies tokens k).1) =
          (most_common tokens k).map
            (fun p : String × Nat => (p.2 : ℚ) / (tokens.length : ℚ)) := by
        rw [htable, List.map_map]
        apply List.map_congr_left
        intro p hp
        show (if tokens.length ≠ 0 then (p.2 : ℚ) / (tokens.length : ℚ) else 0) = _
        rw [if_pos h0]
      rw [hmap]
      have hmm : (most_common tokens k).map
          (fun p : String × Nat => (p.2 : ℚ) / (tokens.length : ℚ)) =
          ((most_common tokens k).map (fun p : String × Nat => ((p.2 : ℕ) : ℚ))).map
            (fun x => x / (tokens.length : ℚ)) := by
        rw [List.map_map]
        exact List.map_congr_left (fun p hp => rfl)
      rw [hmm, list_sum_map_div]
      rw [div_le_one (by exact_mod_cast Nat.pos_of_ne_zero h0)]
      have hmm2 : ((most_common tokens k).map (fun p : String × Nat => ((p.2 : ℕ) : ℚ))) =
          ((most_common tokens k).map (fun p => p.2)).map (fun n : ℕ => (n : ℚ)) := by
        rw [List.map_map]
        exact List.map_congr_left (fun p hp => rfl)
      rw [hmm2, ← list_sum_natCast]
      exact_mod_cast take_counts_le tokens k

/-- Witness for C6 at concrete inputs. -/
theorem claim_C6_witness :
    topk_frequencies ([] : List String) 3 = ([], 0) ∧
      ((topk_frequencies [("X")] 1).1.map TopKEntry.NORM_FREQ).sum ≤ 1 :=
  ⟨(claim_C6 [] 3).2.2 rfl, (claim_C6 [("X")] 1).2.1⟩

/-! ## Similarity metrics -/

/-- Claim C5: for every two top-K word sets, similarity_metrics returns a common-word
count equal to the size of their intersection, and a Jaccard index equal to
intersection size divided by union size that always lies in [0, 1], with Jaccard
defined as 0 whenever the union is empty rather than raising a division error. -/
theorem claim_C5 {α : Type} [DecidableEq α] (top_set_a top_set_b : Finset α) :
    (similarity_metrics top_set_a top_set_b).1 = (top_set_a ∩ top_set_b).card ∧
    0 ≤ (similarity_metrics top_set_a top_set_b).2 ∧
    (similarity_metrics top_set_a top_set_b).2 ≤ 1 ∧
    ((top_set_a ∪ top_set_b).Nonempty →
      (similarity_metrics top_set_a top_set_b).2 =
        ((top_set_a ∩ top_set_b).card : ℚ) / ((top_set_a ∪ top_set_b).card : ℚ)) ∧
    (top_set_a ∪ top_set_b = ∅ → (similarity_metrics top_set_a top_set_b).2 = 0) := by
  have hm : (similarity_metrics top_set_a top_set_b).2 =
      if (top_set_a ∪ top_set_b).Nonempty
        then ((top_set_a ∩ top_set_b).card : ℚ) / ((top_set_a ∪ top_set_b).card : ℚ)
        else 0 := rfl
  refine ⟨rfl, ?_, ?_, ?_, ?_⟩
  · rw [hm]
    split
    · exact div_nonneg (Nat.cast_nonneg _) (Nat.cast_nonneg _)
    · exact le_refl 0
  · rw [hm]
    split
    · refine div_le_one_of_le ?_ (Nat.cast_nonneg _)
      exact_mod_cast Finset.card_le_card
        ((Finset.inter_subset_left).trans (Finset.subset_union_left))
    · norm_num
  · intro h
    rw [hm, if_pos h]
  · intro h
    rw [hm, if_neg]
    rw [h]
    exact Finset.not_nonempty_empty

/-- Witness for C5 at concrete inputs. -/
theorem claim_C5_witness :
    (similarity_metrics ({0} : Finset ℕ) {0}).2 =
        ((({0} : Finset ℕ) ∩ {0}).card : ℚ) / ((({0} : Finset ℕ) ∪ {0}).card : ℚ) ∧
      (similarity_metrics (∅ : Finset ℕ) ∅).2 = 0 :=
  ⟨(claim_C5 {0} {0}).2.2.2.1 (by decide),
    (claim_C5 (∅ : Finset ℕ) ∅).2.2.2.2 (by decide)⟩

/-- Claim C8: for every pair of documents, the common-word count is at most the
minimum of the sizes of the two top-K word sets, which in turn is at most K. -/
theorem claim_C8 (ta tb : List String) (k : Nat) :
    (similarity_metrics (topkWordSet ta k) (topkWordSet tb k)).1 ≤
      min (topkWordSet ta k).card (topkWordSet tb k).card ∧
    min (topkWordSet ta k).card (topkWordSet tb k).card ≤ k := by
  constructor
  · show (topkWordSet ta k ∩ topkWordSet tb k).card ≤ _
    exact le_min (Finset.card_le_card (Finset.inter_subset_left))
      (Finset.card_le_card (Finset.inter_subset_right))
  · have hlen : (topk_frequencies ta k).1.length ≤ k := by
      have h1 : (topk_frequencies ta k).1.length = (most_common ta k).length := by
        show ((most_common ta k).map _).length = _
        rw [List.length_map]
      rw [h1, most_common_length]
      exact min_le_left _ _
    have hcard : (topkWordSet ta k).card ≤ k := by
      refine le_trans (List.toFinset_card_le _) ?_
      rw [List.length_map]
      exact hlen
    exact le_trans (min_le_left _ _) hcard

/-! ## Pair enumeration -/

theorem mem_combinations2 {α : Type} {p : α × α} :
    ∀ {l : List α}, p ∈ combinations2 l → p.1 ∈ l ∧ p.2 ∈ l := by
  intro l
  induction l with
  | nil => intro h; simp [combinations2] at h
  | cons a rest ih =>
    intro h
    rw [combinations2] at h
    rcases List.mem_append.mp h with h1 | h2
    · rcases List.mem_map.mp h1 with ⟨b, hb, rfl⟩
      exact ⟨List.mem_cons_self _ _, List.mem_cons_of_mem _ hb⟩
    · obtain ⟨h3, h4⟩ := ih h2
      exact ⟨List.mem_cons_of_mem _ h3, List.mem_cons_of_mem _ h4⟩

theorem count_map_pair {α : Type} [DecidableEq α] (x c d : α) (l : List α) :
    ((l.map (fun b => (x, b))).count (c, d)) = if c = x then l.count d else 0 := by
  induction l with
  | nil => simp
  | cons e t ih =>
    rw [List.map_cons, List.count_cons, ih]
    by_cases h1 : c = x
    · subst h1
      rw [if_pos rfl, if_pos rfl, List.count_cons]
      congr 1
      by_cases h2 : e = d
      · subst h2; simp
      · have hne : ((c, e) == (c, d)) = false := by
          simp [Prod.ext_iff, h2]
        have hne2 : (e == d) = false := by simp [h2]
        rw [hne, hne2]
    · rw [if_neg h1, if_neg h1]
      have hne : ((x, e) == (c, d)) = false := by
        simp only [beq_eq_false_iff_ne, ne_eq, Prod.mk.injEq, not_and]
        intro hxc
        exact absurd hxc.symm h1
      rw [hne]
      simp

/-- Claim C7: for every (duplicate-free) input list of documents, every unordered
pair of distinct documents is compared exactly once: the pair list contains no
self-pair (A, A) and never contains both (A, B) and (B, A). -/
theorem claim_C7 {α : Type} [DecidableEq α] (l : List α) (hl : l.Nodup) :
    (∀ a : α, (a, a) ∉ combinations2 l) ∧
    (∀ a b : α, a ∈ l → b ∈ l → a ≠ b →
      (combinations2 l).count (a, b) + (combinations2 l).count (b, a) = 1) := by
  induction l with
  | nil =>
    refine ⟨fun a h => by simp [combinations2] at h, fun a b ha => by simp at ha⟩
  | cons x rest ih =>
    obtain ⟨hx, hrest⟩ := List.nodup_cons.mp hl
    obtain ⟨ih1, ih2⟩ := ih hrest
    constructor
    · intro a h
      rw [combinations2] at h
      rcases List.mem_append.mp h with h1 | h2
      · rcases List.mem_map.mp h1 with ⟨b, hb, heq⟩
        injection heq with e1 e2
        subst e1
        subst e2
        exact hx hb
      · exact ih1 a h2
    · intro a b ha hb hab
      rw [combinations2, List.count_append, List.count_append,
        count_map_pair, count_map_pair]
      by_cases hax : a = x
      · subst hax
        have hbrest : b ∈ rest := by
          rcases List.mem_cons.mp hb with hbx | hmem
          · exact absurd hbx.symm hab
          · exact hmem
        have hc1 : (combinations2 rest).count (a, b) = 0 :=
          List.count_eq_zero.mpr (fun hmem => hx (mem_combinations2 hmem).1)
        have hc2 : (combinations2 rest).count (b, a) = 0 :=
          List.count_eq_zero.mpr (fun hmem => hx (mem_combinations2 hmem).2)
        rw [hc1, hc2, if_pos rfl, if_neg (fun hbx => hab hbx.symm),
          List.count_eq_one_of_mem hrest hbrest]
      · by_cases hbx : b = x
        · subst hbx
          have harest : a ∈ rest := (List.mem_cons.mp ha).resolve_left hax
          have hc1 : (combinations2 rest).count (a, b) = 0 :=
            List.count_eq_zero.mpr (fun hmem => hx (mem_combinations2 hmem).2)
          have hc2 : (combinations2 rest).count (b, a) = 0 :=
            List.count_eq_zero.mpr (fun hmem => hx (mem_combinations2 hmem).1)
          rw [hc1, hc2, if_neg hax, if_pos rfl,
            List.count_eq_one_of_mem hrest harest]
        · have harest : a ∈ rest := (List.mem_cons.mp ha).resolve_left hax
          have hbrest : b ∈ rest := (List.mem_cons.mp hb).resolve_left hbx
          rw [if_neg hax, if_neg hbx]
          have := ih2 a b harest hbrest hab
          omega

/-- Witness for C7 at a concrete input. -/
theorem claim_C7_witness :
    (∀ a : ℕ, (a, a) ∉ combinations2 [0, 1]) ∧
    (∀ a b : ℕ, a ∈ [0, 1] → b ∈ [0, 1] → a ≠ b →
      (combinations2 [0, 1]).count (a, b) + (combinations2 [0, 1]).count (b, a) = 1) :=
  claim_C7 [0, 1] (by decide)

/-! ## Sorting the pair results -/

theorem pairSortLe_trans : ∀ p q r : PairResult, pairSortLe p q = true →
    pairSortLe q r = true → pairSortLe p r = true := by
  intro p q r
  simp only [pairSortLe, decide_eq_true_eq]
  intro h1 h2
  rcases h1 with h1 | ⟨h1a, h1b⟩ <;> rcases h2 with h2 | ⟨h2a, h2b⟩
  · left; omega
  · left; omega
  · left; omega
  · right; exact ⟨h1a.trans h2a, le_trans h2b h1b⟩

theorem pairSortLe_total : ∀ p q : PairResult,
    (pairSortLe p q || pairSortLe q p) = true := by
  intro p q
  simp only [pairSortLe, Bool.or_eq_true, decide_eq_true_eq]
  rcases Nat.lt_trichotomy p.COMMON_TOPK_WORDS q.COMMON_TOPK_WORDS with h | h | h
  · right; left; exact h
  · rcases le_total p.JACCARD q.JACCARD with hj | hj
    · right; right; exact ⟨h.symm, hj⟩
    · left; right; exact ⟨h, hj⟩
  · left; left; exact h

theorem pairSortLe_refl (p : PairResult) : pairSortLe p p = true := by
  simp [pairSortLe]

/-- Claim C2: after sorting, the pair results are ordered primarily by common-word
count descending and secondarily by Jaccard descending (equal common-word counts are
always disambiguated by Jaccard), and the first element of the sorted list sorts
before every pair of the input list, i.e. it is the most similar pair. -/
theorem claim_C2 (l : List PairResult) :
    (sortPairs l).Pairwise (fun p q =>
      q.COMMON_TOPK_WORDS < p.COMMON_TOPK_WORDS ∨
        (p.COMMON_TOPK_WORDS = q.COMMON_TOPK_WORDS ∧ q.JACCARD ≤ p.JACCARD)) ∧
    (∀ p ∈ l, ∃ h, (sortPairs l).head? = some h ∧ pairSortLe h p = true) := by
  have hsorted := List.sorted_mergeSort pairSortLe_trans pairSortLe_total l
  have hsorted' : (sortPairs l).Pairwise (fun a b => pairSortLe a b = true) := hsorted
  constructor
  · exact hsorted'.imp (fun h => of_decide_eq_true h)
  · intro p hp
    have hmem : p ∈ sortPairs l := List.mem_mergeSort.mpr hp
    rcases hsp : sortPairs l with _ | ⟨h0, t⟩
    · rw [hsp] at hmem
      simp at hmem
    · rw [hsp] at hmem hsorted'
      refine ⟨h0, rfl, ?_⟩
      rcases List.mem_cons.mp hmem with rfl | hint
      · exact pairSortLe_refl _
      · exact (List.pairwise_cons.mp hsorted').1 p hint

/-- Witness for C2 at a concrete input. -/
theorem claim_C2_witness :
    ∃ h, (sortPairs [(⟨("a"), ("b"), 1, 1 / 2⟩ : PairResult)]).head? = some h ∧
      pairSortLe h (⟨("a"), ("b"), 1, 1 / 2⟩ : PairResult) = true :=
  (claim_C2 _).2 _ (List.mem_cons_self _ _)

/-! ## Early exit of main -/

/-- Claim C3: if fewer than 2 qualifying .txt files are found in the target
directory, the program prints a user-facing message and terminates early: the run
result is the `insufficient` outcome, which carries no top-K tables, no pair list
and no export files, whatever `--export` was. -/
theorem claim_C3 (dirFiles : List String) (contents : String → String) (topk : Nat)
    (exportArg : String) (h : (list_text_files dirFiles).length < 2) :
    main dirFiles contents topk exportArg =
      MainResult.insufficient
        ("Please provide at least 2 .txt files in the directory.") := by
  simp only [main]
  rw [if_pos h]

/-- Witness for C3 at a concrete input: a directory holding a single text file,
with the export option set. -/
theorem claim_C3_witness :
    (list_text_files [("a.txt")]).length < 2 ∧
      main [("a.txt")] (fun _ => ("")) 15 ("out") =
        MainResult.insufficient
          ("Please provide at least 2 .txt files in the directory.") := by
  have h : (list_text_files [("a.txt")]).length < 2 := by
    simp only [list_text_files, List.length_mergeSort]
    decide
  exact ⟨h, claim_C3 _ _ _ _ h⟩

/-! ## Rounding of the stored Jaccard values (claim C9) -/

theorem repA_injective :
    Function.Injective (fun i : ℕ => List.asString (List.replicate i ('A'))) := by
  intro i j h
  have h2 : List.replicate i ('A') = List.replicate j ('A') := congrArg String.data h
  have h3 := congrArg List.length h2
  simpa using h3

theorem sampleWords_card (n : Nat) : (sampleWords n).card = n := by
  rw [sampleWords, Finset.card_image_of_injective _ repA_injective, Finset.card_range]

theorem sampleWords_subset {m n : Nat} (h : m ≤ n) : sampleWords m ⊆ sampleWords n :=
  Finset.image_subset_image (Finset.range_subset.mpr h)

theorem sim_sample (n : Nat) (hn : 1 ≤ n) :
    similarity_metrics (sampleWords 1) (sampleWords n) = (1, 1 / (n : ℚ)) := by
  have hsub : sampleWords 1 ⊆ sampleWords n := sampleWords_subset hn
  have hinter : sampleWords 1 ∩ sampleWords n = sampleWords 1 :=
    Finset.inter_eq_left.mpr hsub
  have hunion : sampleWords 1 ∪ sampleWords n = sampleWords n :=
    Finset.union_eq_right.mpr hsub
  have hm : similarity_metrics (sampleWords 1) (sampleWords n) =
      ((sampleWords 1 ∩ sampleWords n).card,
        if (sampleWords 1 ∪ sampleWords n).Nonempty
          then ((sampleWords 1 ∩ sampleWords n).card : ℚ) /
            ((sampleWords 1 ∪ sampleWords n).card : ℚ)
          else 0) := rfl
  rw [hm, hinter, hunion, sampleWords_card, sampleWords_card]
  rw [if_pos (Finset.card_pos.mp (by rw [sampleWords_card]; omega))]
  norm_num

/-- Counterexample to C9 as stated: the two pair results built from the top-K word
sets `sampleWords 1` versus `sampleWords 100` and `sampleWords 1` versus
`sampleWords 101` have exact Jaccard indices 1/100 and 1/101, which differ by
1/10100 < 1/10000 (less than the rounding resolution), yet their stored (rounded)
JACCARD keys differ: 0.0100 versus 0.0099. -/
theorem claim_C9_counterexample :
    |(similarity_metrics (sampleWords 1) (sampleWords 100)).2 -
        (similarity_metrics (sampleWords 1) (sampleWords 101)).2| < 1 / 10000 ∧
      (mkPair ("a.txt") ("b.txt") (sampleWords 1) (sampleWords 100)).JACCARD ≠
        (mkPair ("c.txt") ("d.txt") (sampleWords 1) (sampleWords 101)).JACCARD := by
  have h100 := sim_sample 100 (by omega)
  have h101 := sim_sample 101 (by omega)
  have hr100 : pyRound4 (1 / 100) = 1 / 100 := by
    have hx : (1 : ℚ) / 100 * 10000 = ((100 : ℤ) : ℚ) := by norm_num
    rw [pyRound4, roundHalfEven, hx, Int.fract_intCast, Int.floor_intCast]
    norm_num
  have hr101 : pyRound4 (1 / 101) = 99 / 10000 := by
    have hx : (1 : ℚ) / 101 * 10000 = 10000 / 101 := by norm_num
    have hf : Int.fract ((10000 : ℚ) / 101) = 1 / 101 := by
      rw [Int.fract]
      norm_num
    have hfl : ⌊(10000 : ℚ) / 101⌋ = 99 := by norm_num
    rw [pyRound4, roundHalfEven, hx, hf, hfl]
    norm_num
  constructor
  · rw [h100, h101]
    dsimp only
    simp only [Nat.cast_ofNat]
    rw [abs_sub_lt_iff]
    constructor <;> norm_num
  · have hJ1 : (mkPair ("a.txt") ("b.txt") (sampleWords 1)
        (sampleWords 100)).JACCARD =
        pyRound4 (similarity_metrics (sampleWords 1) (sampleWords 100)).2 := rfl
    have hJ2 : (mkPair ("c.txt") ("d.txt") (sampleWords 1)
        (sampleWords 101)).JACCARD =
        pyRound4 (similarity_metrics (sampleWords 1) (sampleWords 101)).2 := rfl
    rw [hJ1, hJ2, h100, h101]
    dsimp only
    simp only [Nat.cast_ofNat]
    rw [hr100, hr101]
    norm_num

/-- Claim C9 (amended): the JACCARD value stored in each pair result is the exact
Jaccard index rounded to 4 decimal places, so it is the rounded value that the
secondary sort key compares: two pairs whose exact Jaccard indices round to the same
4-decimal value compare as equal on that key (but two exact values closer than the
rounding resolution may still straddle a rounding boundary and compare as
different). -/
theorem claim_C9_amended (a b c d : String) (sa sb sc sd : Finset String) :
    (mkPair a b sa sb).JACCARD = pyRound4 (similarity_metrics sa sb).2 ∧
    (pyRound4 (similarity_metrics sa sb).2 = pyRound4 (similarity_metrics sc sd).2 →
      (mkPair a b sa sb).JACCARD = (mkPair c d sc sd).JACCARD) := by
  refine ⟨rfl, ?_⟩
  intro h
  show pyRound4 (similarity_metrics sa sb).2 = pyRound4 (similarity_metrics sc sd).2
  exact h

/-- Witness for the amended C9 at a concrete input. -/
theorem claim_C9_witness :
    (mkPair ("a") ("b") (∅ : Finset String) ∅).JACCARD =
      (mkPair ("c") ("d") (∅ : Finset String) ∅).JACCARD :=
  (claim_C9_amended ("a") ("b") ("c") ("d") ∅ ∅ ∅ ∅).2 rfl

end SimilarBooks
